import Mathlib

/-!
# Verification of the recursive video-resize tool

Shallow embedding of the resize-decision and conversion-pipeline engine of
`video_resize.py` and `videoresize_4_1.py` (class `VideoResize`).

Modelling conventions:
* Python float arithmetic is modelled by exact rational arithmetic (`ℚ`);
  Python `int(x)` truncation of the nonnegative quantities appearing here is
  `Nat.floor`.
* Pixel dimensions, byte sizes and bitrates read from the probe are natural
  numbers; ratios, frame rates and computed bitrates are rationals.
* The file system touched by `resize` is an association list from abstract
  output paths to abstract file contents; the external encoder is an
  arbitrary function from an asset to an optional produced file (`none`
  models a non-zero ffmpeg exit status).
-/

namespace VideoResizeModel

/-! ## Frame-rate string handling (`get_infoDict`) -/

/-- Split a character list at every occurrence of the separator `c`
(the behaviour of Python's `str.split(c)` on the fragments used here). -/
def splitOnChar (c : Char) : List Char → List (List Char)
  | [] => [[]]
  | ch :: rest =>
    let r := splitOnChar c rest
    if ch = c then [] :: r
    else
      match r with
      | h :: t => (ch :: h) :: t
      | [] => [[ch]]

/-- The numeric value of a decimal digit character. -/
def charDigit? (c : Char) : Option ℕ :=
  if '0' ≤ c ∧ c ≤ '9' then some (c.toNat - 48) else none

/-- Parse a non-empty all-digit character list as a natural number. -/
def digitsVal : List Char → Option ℕ
  | [] => none
  | l =>
    l.foldl
      (fun acc c =>
        match acc, charDigit? c with
        | some a, some d => some (10 * a + d)
        | _, _ => none)
      (some 0)

/-- Models `float(eval(info["avg_frame_rate"]))` in `get_infoDict`
(`video_resize.py` line 321, `videoresize_4_1.py` line 331): the Python
`eval` builtin applied to the probe's frame-rate string, restricted to the
arithmetic fragment with at most a single operator — an integer literal
`N`, a quotient `N/D`, or a sum `N+D`.  `eval` evaluates the string as a
general Python expression, so `"2+3"` yields `5`; a zero denominator or a
string outside the fragment raises, modelled as `none`. -/
def evalFrameRate (s : String) : Option ℚ :=
  match splitOnChar '/' s.toList with
  | [a, b] =>
    match digitsVal a, digitsVal b with
    | some n, some d => if d = 0 then none else some ((n : ℚ) / d)
    | _, _ => none
  | [w] =>
    match splitOnChar '+' w with
    | [a, b] =>
      match digitsVal a, digitsVal b with
      | some n, some d => some ((n : ℚ) + d)
      | _, _ => none
    | [v] => (digitsVal v).map (fun n => (n : ℚ))
    | _ => none
  | _ => none

/-- Modelled from the spec: the frame-rate string "must be parsed as
numerator/denominator, not evaluated as an arbitrary expression" — split
the string on `/` into exactly a numerator and a denominator, parse both
as integers, and divide.  Anything else is rejected. -/
def parseAvgFrameRateSpec (s : String) : Option ℚ :=
  match splitOnChar '/' s.toList with
  | [a, b] =>
    match digitsVal a, digitsVal b with
    | some n, some d => if d = 0 then none else some ((n : ℚ) / d)
    | _, _ => none
  | _ => none

/-! ## Resize parameter resolver (`set_parameters` and its inner helpers) -/

/-- The resize mode (`config_dict["mode"]`), carrying its validated
`custom_param`: an explicit target size for `custom`, a scale factor for
`divide`. -/
inductive Mode
  | fullhd
  | uhd4k
  | box1920
  | box3840
  | custom (w h : ℕ)
  | divide (r : ℚ)
deriving DecidableEq

/-- `config_dict["limit_direction"]`. -/
inductive LimitDir
  | x
  | y
  | xy
deriving DecidableEq

/-- The `preset_sizes` table of `set_size` for the target-driven modes
(`divide` never consults it). -/
def targetOf : Mode → ℕ × ℕ
  | .fullhd => (1920, 1080)
  | .uhd4k => (3840, 2160)
  | .box1920 => (1920, 1920)
  | .box3840 => (3840, 3840)
  | .custom w h => (w, h)
  | .divide _ => (0, 0)

/-- Whether the mode takes the target-driven branch of `set_size`
(`mode in ("fullhd", "4k", "1920box", "3840box", "custom")`). -/
def Mode.usesTarget : Mode → Bool
  | .divide _ => false
  | _ => true

/-- Python `int(x)` applied to the nonnegative quantities occurring in
`set_size`: truncation toward zero, which on a nonnegative rational is the
floor `⌊q⌋₊` (lemma `pyInt_eq_floor` below). -/
def pyInt (q : ℚ) : ℕ :=
  q.num.toNat / q.den

/-- One axis of the target-driven scale:
`target_w / origin_w if origin_w > target_w else 1`. -/
def dimScale (origin target : ℕ) : ℚ :=
  if target < origin then (target : ℚ) / origin else 1

/-- The scale chosen by `set_size` before the minimum-size adjustment:
per-axis scales combined according to the limit direction for the
target-driven modes, the configured factor for `divide`. -/
def modeScale (origin : ℕ × ℕ) (m : Mode) (ld : LimitDir) : ℚ :=
  match m with
  | .divide r => r
  | m =>
    let t := targetOf m
    let rw := dimScale origin.1 t.1
    let rh := dimScale origin.2 t.2
    match ld with
    | .x => rw
    | .y => rh
    | .xy => min rw rh

/-- The minimum-size adjustment of `set_size`: raise the scale to
`min_w / origin_w` and/or `min_h / origin_h` according to the limit
direction. -/
def minAdjustedScale (origin minsz : ℕ × ℕ) (ld : LimitDir) (r : ℚ) : ℚ :=
  match ld with
  | .x => max r ((minsz.1 : ℚ) / origin.1)
  | .y => max r ((minsz.2 : ℚ) / origin.2)
  | .xy => max r (max ((minsz.1 : ℚ) / origin.1) ((minsz.2 : ℚ) / origin.2))

/-- The scale actually applied by `set_size`: the mode-driven scale,
replaced by the minimum-adjusted scale when either provisional dimension
falls below the configured minimum
(`if new_w < min_w or new_h < min_h: ...`). -/
def effScale (origin : ℕ × ℕ) (m : Mode) (minsz : ℕ × ℕ) (ld : LimitDir) : ℚ :=
  if pyInt ((origin.1 : ℚ) * modeScale origin m ld) < minsz.1 ∨
      pyInt ((origin.2 : ℚ) * modeScale origin m ld) < minsz.2 then
    minAdjustedScale origin minsz ld (modeScale origin m ld)
  else modeScale origin m ld

/-- The dimensions `new_w = int(origin_w * ratio)`,
`new_h = int(origin_h * ratio)` after the minimum-size adjustment but
before the even-size adjustment. -/
def setSizeRaw (origin : ℕ × ℕ) (m : Mode) (minsz : ℕ × ℕ) (ld : LimitDir) : ℕ × ℕ :=
  (pyInt ((origin.1 : ℚ) * effScale origin m minsz ld),
    pyInt ((origin.2 : ℚ) * effScale origin m minsz ld))

/-- The even-size adjustment: `if new_w % 2 == 1: new_w += 1`. -/
def evenUp (n : ℕ) : ℕ :=
  if n % 2 = 1 then n + 1 else n

/-- `set_size` (`video_resize.py` lines 335–379,
`videoresize_4_1.py` lines 345–389). -/
def set_size (origin : ℕ × ℕ) (m : Mode) (minsz : ℕ × ℕ) (ld : LimitDir) : ℕ × ℕ :=
  (evenUp (setSizeRaw origin m minsz ld).1, evenUp (setSizeRaw origin m minsz ld).2)

/-- `bitrateFromBPP` inside `set_bit_rate` (`videoresize_4_1.py`
lines 392–403): `bpp * width * height * fps`. -/
def bitrateFromBPP (bpp : ℚ) (width height : ℕ) (fps : ℚ) : ℚ :=
  bpp * width * height * fps

/-- `set_bit_rate` (`videoresize_4_1.py` lines 391–405):
`calculated_bitrate if origin_bitrate > calculated_bitrate else
origin_bitrate`. -/
def set_bit_rate (origin_bitrate bpp : ℚ) (width height : ℕ) (fps : ℚ) : ℚ :=
  let calculated := bitrateFromBPP bpp width height fps
  if calculated < origin_bitrate then calculated else origin_bitrate

/-- `set_fps`: `config_fps if origin_fps > config_fps else origin_fps`. -/
def set_fps (origin_fps config_fps : ℚ) : ℚ :=
  if config_fps < origin_fps then config_fps else origin_fps

/-- One entry of `video_info_dict` as built by `get_infoDict`. -/
structure VideoInfo where
  size : ℕ × ℕ
  bit_rate : ℕ
  avg_frame_rate : ℚ
  duration : ℚ
deriving DecidableEq

/-- The fields of `config_dict` consumed by `set_parameters`
(`videoresize_4_1.py` variant, where the bitrate cap is the `bpp`
coefficient). -/
structure Config where
  mode : Mode
  min_size : ℕ × ℕ
  limit_direction : LimitDir
  fps : ℚ
  bpp : ℚ
  nochange_copy : Bool
deriving DecidableEq

/-- One entry of `resize_param_dict` as built by `set_parameters`. -/
structure ResizeParams where
  size : ℕ × ℕ
  bit_rate : ℚ
  fps : ℚ
  change_required : Bool
deriving DecidableEq

/-- The per-video body of `set_parameters` (`videoresize_4_1.py`
lines 410–428): compute target size, fps and bitrate, and set
`change_required = (new_size != orig_size) or (new_bitrate != orig_bitrate)
or (new_fps != orig_fps)`. -/
def set_parameters (info : VideoInfo) (cfg : Config) : ResizeParams :=
  let new_size := set_size info.size cfg.mode cfg.min_size cfg.limit_direction
  let new_fps := set_fps info.avg_frame_rate cfg.fps
  let new_bitrate := set_bit_rate (info.bit_rate : ℚ) cfg.bpp new_size.1 new_size.2 new_fps
  { size := new_size
    bit_rate := new_bitrate
    fps := new_fps
    change_required :=
      decide (new_size ≠ info.size) || decide (new_bitrate ≠ (info.bit_rate : ℚ)) ||
        decide (new_fps ≠ info.avg_frame_rate) }

/-! ## Conversion executor and batch loop (`resize`, `videoresize_4_1.py`
lines 498–622)

The loop body touches the file system only through the computed
`output_path`, so the output tree is an association list from abstract
path identities to files; a file is its content identity plus its byte
size (`os.path.getsize`).  The external `ffmpeg` invocation is an
arbitrary function from the asset to an optional produced file; `none`
models a non-zero return code or a launch failure, in which case the loop
does `continue` leaving no output.  `shutil.copy2` is modelled as writing
the source file verbatim.  Each call of
`calculate_estimated_finish_time` is counted in `etaUpdates`; each
encoder invocation in `encoderRuns`. -/

/-- An abstract file: content identity and byte size. -/
structure SrcFile where
  content : ℕ
  byteSize : ℕ
deriving DecidableEq

/-- One unit of work of the `resize` loop: the output path computed for
the video, the source file, and the `change_required` flag of its
`resize_param_dict` entry. -/
structure Asset where
  outPath : ℕ
  src : SrcFile
  change_required : Bool
deriving DecidableEq

/-- The output tree: newest write first, looked up by path. -/
abbrev FS := List (ℕ × SrcFile)

/-- `output_path.exists()` / reading the file at a path. -/
def FS.look (fs : FS) (p : ℕ) : Option SrcFile :=
  match fs with
  | [] => none
  | (q, f) :: rest => if q = p then some f else FS.look rest p

/-- Writing (or overwriting) the file at a path. -/
def FS.write (fs : FS) (p : ℕ) (f : SrcFile) : FS :=
  (p, f) :: fs

/-- How one iteration of the `resize` loop ended. -/
inductive Outcome
  | skippedExists
  | copiedNoChange
  | skippedNoChange
  | failed
  | converted
  | copiedOversize
deriving DecidableEq

/-- Result of one iteration of the `resize` loop. -/
structure StepResult where
  fs : FS
  outcome : Outcome
  etaUpdates : ℕ
  encoderRuns : ℕ
deriving DecidableEq

/-- One iteration of the `resize` loop (`videoresize_4_1.py`
lines 525–615): skip when the output already exists; otherwise copy or
skip when no change is required; otherwise run the encoder, and on success
keep its output unless it is strictly larger than the source, in which
case copy the source verbatim over it.  The estimated-finish-time
recomputation runs once at the end of the iteration on every path except
the encoder-failure `continue`. -/
def processFile (enc : Asset → Option SrcFile) (nc : Bool) (fs : FS) (a : Asset) :
    StepResult :=
  match fs.look a.outPath with
  | some _ => ⟨fs, .skippedExists, 1, 0⟩
  | none =>
    if a.change_required = false then
      if nc then ⟨fs.write a.outPath a.src, .copiedNoChange, 1, 0⟩
      else ⟨fs, .skippedNoChange, 1, 0⟩
    else
      match enc a with
      | none => ⟨fs, .failed, 0, 1⟩
      | some out =>
        if a.src.byteSize < out.byteSize then
          ⟨fs.write a.outPath a.src, .copiedOversize, 1, 1⟩
        else
          ⟨fs.write a.outPath out, .converted, 1, 1⟩

/-- Result of a whole `resize` run over the batch. -/
structure BatchResult where
  fs : FS
  outcomes : List Outcome
  etaUpdates : ℕ
  encoderRuns : ℕ
deriving DecidableEq

/-- The `resize` loop over the discovered assets in arrival order. -/
def runBatch (enc : Asset → Option SrcFile) (nc : Bool) : FS → List Asset → BatchResult
  | fs, [] => ⟨fs, [], 0, 0⟩
  | fs, a :: rest =>
    let s := processFile enc nc fs a
    let r := runBatch enc nc s.fs rest
    ⟨r.fs, s.outcome :: r.outcomes, s.etaUpdates + r.etaUpdates,
      s.encoderRuns + r.encoderRuns⟩

/-! ## Helper lemmas -/

theorem pyInt_eq_floor (q : ℚ) (hq : 0 ≤ q) : pyInt q = ⌊q⌋₊ := by
  have hnum : 0 ≤ q.num := Rat.num_nonneg.mpr hq
  obtain ⟨k, hk⟩ := Int.eq_ofNat_of_zero_le hnum
  rw [← Int.floor_toNat]
  conv_rhs => rw [show q = ((q.num : ℚ) / (q.den : ℚ)) from (Rat.num_div_den q).symm]
  rw [Rat.floor_intCast_div_natCast, hk]
  simp only [pyInt, hk, Int.toNat_natCast]
  rw [← Int.natCast_div, Int.toNat_natCast]

theorem pyInt_le_of_le (q : ℚ) (n : ℕ) (h : q ≤ (n : ℚ)) : pyInt q ≤ n := by
  rcases le_or_lt 0 q with hq | hq
  · rw [pyInt_eq_floor q hq]
    exact (Nat.floor_le_floor h).trans_eq (Nat.floor_natCast n)
  · have hnum : q.num < 0 := Rat.num_neg.mpr hq
    simp [pyInt, Int.toNat_of_nonpos hnum.le]

theorem le_pyInt (n : ℕ) (q : ℚ) (h : (n : ℚ) ≤ q) : n ≤ pyInt q := by
  have hq : 0 ≤ q := le_trans (Nat.cast_nonneg n) h
  rw [pyInt_eq_floor q hq]
  exact Nat.le_floor h

theorem evenUp_even (n : ℕ) : Even (evenUp n) := by
  unfold evenUp
  split
  all_goals rw [Nat.even_iff]; omega

theorem le_evenUp (n : ℕ) : n ≤ evenUp n := by
  unfold evenUp
  split <;> omega

theorem evenUp_le_succ (n : ℕ) : evenUp n ≤ n + 1 := by
  unfold evenUp
  split <;> omega

theorem dimScale_nonneg (o t : ℕ) : 0 ≤ dimScale o t := by
  unfold dimScale
  split
  · positivity
  · exact zero_le_one

theorem dimScale_le_one (o t : ℕ) : dimScale o t ≤ 1 := by
  unfold dimScale
  split
  · rename_i h
    have ho : (0 : ℚ) < o := by
      have : 0 < o := by omega
      exact_mod_cast this
    rw [div_le_one ho]
    exact_mod_cast h.le
  · exact le_refl 1

theorem mul_dimScale_le (o t : ℕ) : (o : ℚ) * dimScale o t ≤ (t : ℚ) := by
  unfold dimScale
  split
  · rename_i h
    have ho : (o : ℚ) ≠ 0 := by
      have : 0 < o := by omega
      positivity
    rw [mul_div_cancel₀ _ ho]
  · rename_i h
    rw [mul_one]
    exact_mod_cast not_lt.mp h

theorem modeScale_usesTarget (origin : ℕ × ℕ) (m : Mode) (ld : LimitDir)
    (hm : m.usesTarget = true) :
    modeScale origin m ld =
      match ld with
      | .x => dimScale origin.1 (targetOf m).1
      | .y => dimScale origin.2 (targetOf m).2
      | .xy => min (dimScale origin.1 (targetOf m).1) (dimScale origin.2 (targetOf m).2) := by
  cases m <;> cases ld <;> first
    | rfl
    | simp [Mode.usesTarget] at hm

theorem modeScale_le_one (origin : ℕ × ℕ) (m : Mode) (ld : LimitDir)
    (hm : m.usesTarget = true) : modeScale origin m ld ≤ 1 := by
  rw [modeScale_usesTarget origin m ld hm]
  cases ld
  · exact dimScale_le_one _ _
  · exact dimScale_le_one _ _
  · exact le_trans (min_le_left _ _) (dimScale_le_one _ _)

theorem effScale_le_one (origin : ℕ × ℕ) (m : Mode) (minsz : ℕ × ℕ) (ld : LimitDir)
    (hw : 0 < origin.1) (hh : 0 < origin.2) (hm : m.usesTarget = true)
    (hmw : minsz.1 ≤ origin.1) (hmh : minsz.2 ≤ origin.2) :
    effScale origin m minsz ld ≤ 1 := by
  have how : (0 : ℚ) < origin.1 := by exact_mod_cast hw
  have hoh : (0 : ℚ) < origin.2 := by exact_mod_cast hh
  have hdw : (minsz.1 : ℚ) / origin.1 ≤ 1 := by
    rw [div_le_one how]; exact_mod_cast hmw
  have hdh : (minsz.2 : ℚ) / origin.2 ≤ 1 := by
    rw [div_le_one hoh]; exact_mod_cast hmh
  unfold effScale
  split
  · cases ld
    · exact max_le (modeScale_le_one origin m _ hm) hdw
    · exact max_le (modeScale_le_one origin m _ hm) hdh
    · exact max_le (modeScale_le_one origin m _ hm) (max_le hdw hdh)
  · exact modeScale_le_one origin m ld hm

theorem le_pyInt_mul_of_div_le (o mn : ℕ) (ho : 0 < o) (s : ℚ)
    (hs : (mn : ℚ) / o ≤ s) : mn ≤ pyInt ((o : ℚ) * s) := by
  have hoQ : (o : ℚ) ≠ 0 := by positivity
  apply le_pyInt
  have hmn : (o : ℚ) * ((mn : ℚ) / o) = mn := by
    field_simp
  calc (mn : ℚ) = (o : ℚ) * ((mn : ℚ) / o) := hmn.symm
    _ ≤ (o : ℚ) * s := mul_le_mul_of_nonneg_left hs (Nat.cast_nonneg o)

/-! ## Claim theorems -/

/-- C1: the source does **not** parse `avg_frame_rate` by an explicit
numerator/denominator split; `get_infoDict` feeds the probe string to the
Python `eval` builtin.  On a well-formed rational string the two agree,
but on the arithmetic expression `"2+3"` — not of the form `"N/D"` — the
code's `eval` produces the value `5` where the split parser mandated by
the spec rejects the string, i.e. the code does evaluate arbitrary
expressions. -/
theorem frame_rate_eval_not_split_cex :
    evalFrameRate "2+3" = some 5 ∧
    parseAvgFrameRateSpec "2+3" = none ∧
    evalFrameRate "30000/1001" = some ((30000 : ℚ) / 1001) ∧
    parseAvgFrameRateSpec "30000/1001" = some ((30000 : ℚ) / 1001) := by
  refine ⟨?_, ?_, ?_, ?_⟩
  · simp [evalFrameRate, splitOnChar, digitsVal, charDigit?] <;> norm_num
  · simp [parseAvgFrameRateSpec, splitOnChar, digitsVal, charDigit?]
  · simp [evalFrameRate, splitOnChar, digitsVal, charDigit?] <;> norm_num
  · simp [parseAvgFrameRateSpec, splitOnChar, digitsVal, charDigit?] <;> norm_num

/-- C8: for every positive native size, every mode (including `divide`),
every minimum size and limit direction, both dimensions returned by
`set_size` are even; each final dimension is obtained from the computed
(pre-rounding) dimension by incrementing an odd value by one, never
decrementing: the final value lies between the computed one and the
computed one plus 1. -/
theorem set_size_even_dimensions (origin : ℕ × ℕ) (m : Mode) (minsz : ℕ × ℕ)
    (ld : LimitDir) (hw : 0 < origin.1) (hh : 0 < origin.2) :
    Even (set_size origin m minsz ld).1 ∧ Even (set_size origin m minsz ld).2 ∧
    (setSizeRaw origin m minsz ld).1 ≤ (set_size origin m minsz ld).1 ∧
    (set_size origin m minsz ld).1 ≤ (setSizeRaw origin m minsz ld).1 + 1 ∧
    (setSizeRaw origin m minsz ld).2 ≤ (set_size origin m minsz ld).2 ∧
    (set_size origin m minsz ld).2 ≤ (setSizeRaw origin m minsz ld).2 + 1 :=
  ⟨evenUp_even _, evenUp_even _, le_evenUp _, evenUp_le_succ _, le_evenUp _,
    evenUp_le_succ _⟩

/-- C2 (amended): for the target-driven modes, whenever the configured
minimum size does not exceed the native size on either axis, the scale
actually applied by `set_size` never exceeds 1, the pre-rounding
dimensions never exceed the native dimensions, and each final dimension
exceeds the native one by at most the even-rounding increment of 1;
moreover, when `limit_direction` is `xy` and the minimum-size adjustment
does not trigger, each final dimension also exceeds the corresponding
target dimension by at most 1. -/
theorem set_size_no_upscale (origin : ℕ × ℕ) (m : Mode) (minsz : ℕ × ℕ) (ld : LimitDir)
    (hw : 0 < origin.1) (hh : 0 < origin.2) (hm : m.usesTarget = true)
    (hmw : minsz.1 ≤ origin.1) (hmh : minsz.2 ≤ origin.2) :
    effScale origin m minsz ld ≤ 1 ∧
    (setSizeRaw origin m minsz ld).1 ≤ origin.1 ∧
    (setSizeRaw origin m minsz ld).2 ≤ origin.2 ∧
    (set_size origin m minsz ld).1 ≤ origin.1 + 1 ∧
    (set_size origin m minsz ld).2 ≤ origin.2 + 1 ∧
    (ld = LimitDir.xy →
      ¬(pyInt ((origin.1 : ℚ) * modeScale origin m ld) < minsz.1 ∨
          pyInt ((origin.2 : ℚ) * modeScale origin m ld) < minsz.2) →
      (set_size origin m minsz ld).1 ≤ (targetOf m).1 + 1 ∧
      (set_size origin m minsz ld).2 ≤ (targetOf m).2 + 1) := by
  have h1 : effScale origin m minsz ld ≤ 1 :=
    effScale_le_one origin m minsz ld hw hh hm hmw hmh
  have hr1 : (setSizeRaw origin m minsz ld).1 ≤ origin.1 := by
    apply pyInt_le_of_le
    exact mul_le_of_le_one_right (Nat.cast_nonneg _) h1
  have hr2 : (setSizeRaw origin m minsz ld).2 ≤ origin.2 := by
    apply pyInt_le_of_le
    exact mul_le_of_le_one_right (Nat.cast_nonneg _) h1
  refine ⟨h1, hr1, hr2, ?_, ?_, ?_⟩
  · exact (evenUp_le_succ _).trans (by omega)
  · exact (evenUp_le_succ _).trans (by omega)
  · intro hld hnt
    subst hld
    have he : effScale origin m minsz LimitDir.xy = modeScale origin m LimitDir.xy := by
      unfold effScale
      rw [if_neg hnt]
    have hxy : modeScale origin m LimitDir.xy =
        min (dimScale origin.1 (targetOf m).1) (dimScale origin.2 (targetOf m).2) :=
      modeScale_usesTarget origin m LimitDir.xy hm
    have hb1 : (setSizeRaw origin m minsz LimitDir.xy).1 ≤ (targetOf m).1 := by
      apply pyInt_le_of_le
      rw [he, hxy]
      calc (origin.1 : ℚ) * min (dimScale origin.1 (targetOf m).1) (dimScale origin.2 (targetOf m).2)
          ≤ (origin.1 : ℚ) * dimScale origin.1 (targetOf m).1 :=
            mul_le_mul_of_nonneg_left (min_le_left _ _) (Nat.cast_nonneg _)
        _ ≤ ((targetOf m).1 : ℚ) := mul_dimScale_le _ _
    have hb2 : (setSizeRaw origin m minsz LimitDir.xy).2 ≤ (targetOf m).2 := by
      apply pyInt_le_of_le
      rw [he, hxy]
      calc (origin.2 : ℚ) * min (dimScale origin.1 (targetOf m).1) (dimScale origin.2 (targetOf m).2)
          ≤ (origin.2 : ℚ) * dimScale origin.2 (targetOf m).2 :=
            mul_le_mul_of_nonneg_left (min_le_right _ _) (Nat.cast_nonneg _)
        _ ≤ ((targetOf m).2 : ℚ) := mul_dimScale_le _ _
    exact ⟨(evenUp_le_succ _).trans (by omega), (evenUp_le_succ _).trans (by omega)⟩

/-- C2 counterexample: with native size 3×3, mode `fullhd`, direction
`xy` and the (valid) minimum size 4000×4000, the applied scale exceeds 1
and both output dimensions exceed both the native dimension 3 and — in
`xy` direction — the target dimension: `set_size` upscales, contradicting
the claim that the ratio never exceeds 1 and that no output dimension
exceeds the native or target dimension. -/
theorem set_size_upscale_cex :
    1 < effScale (3, 3) Mode.fullhd (4000, 4000) LimitDir.xy ∧
    3 < (set_size (3, 3) Mode.fullhd (4000, 4000) LimitDir.xy).1 ∧
    3 < (set_size (3, 3) Mode.fullhd (4000, 4000) LimitDir.xy).2 ∧
    1920 < (set_size (3, 3) Mode.fullhd (4000, 4000) LimitDir.xy).1 := by
  refine ⟨?_, ?_, ?_, ?_⟩ <;>
    norm_num [set_size, setSizeRaw, effScale, modeScale, dimScale, minAdjustedScale,
      evenUp, pyInt, targetOf, max_def] <;> decide

/-- C3 (amended): for every positive native size, every mode and every
minimum size, the `set_size` result meets the configured minimum on the
axis selected by the limit direction — width for `x`, height for `y`,
both for `xy`.  (The opposite axis may remain below its minimum when the
direction is `x` or `y`.) -/
theorem set_size_min_on_limited_axis (origin : ℕ × ℕ) (m : Mode) (minsz : ℕ × ℕ)
    (ld : LimitDir) (hw : 0 < origin.1) (hh : 0 < origin.2) :
    (ld = LimitDir.x ∨ ld = LimitDir.xy → minsz.1 ≤ (set_size origin m minsz ld).1) ∧
    (ld = LimitDir.y ∨ ld = LimitDir.xy → minsz.2 ≤ (set_size origin m minsz ld).2) := by
  by_cases htr : pyInt ((origin.1 : ℚ) * modeScale origin m ld) < minsz.1 ∨
      pyInt ((origin.2 : ℚ) * modeScale origin m ld) < minsz.2
  · have he : effScale origin m minsz ld =
        minAdjustedScale origin minsz ld (modeScale origin m ld) := by
      unfold effScale
      rw [if_pos htr]
    constructor
    · rintro (hld | hld) <;> subst hld
      · refine le_trans ?_ (le_evenUp _)
        show minsz.1 ≤ pyInt ((origin.1 : ℚ) * effScale origin m minsz LimitDir.x)
        rw [he]
        exact le_pyInt_mul_of_div_le _ _ hw _ (le_max_right _ _)
      · refine le_trans ?_ (le_evenUp _)
        show minsz.1 ≤ pyInt ((origin.1 : ℚ) * effScale origin m minsz LimitDir.xy)
        rw [he]
        exact le_pyInt_mul_of_div_le _ _ hw _
          (le_trans (le_max_left _ _) (le_max_right _ _))
    · rintro (hld | hld) <;> subst hld
      · refine le_trans ?_ (le_evenUp _)
        show minsz.2 ≤ pyInt ((origin.2 : ℚ) * effScale origin m minsz LimitDir.y)
        rw [he]
        exact le_pyInt_mul_of_div_le _ _ hh _ (le_max_right _ _)
      · refine le_trans ?_ (le_evenUp _)
        show minsz.2 ≤ pyInt ((origin.2 : ℚ) * effScale origin m minsz LimitDir.xy)
        rw [he]
        exact le_pyInt_mul_of_div_le _ _ hh _
          (le_trans (le_max_right _ _) (le_max_right _ _))
  · push_neg at htr
    have he : effScale origin m minsz ld = modeScale origin m ld := by
      unfold effScale
      rw [if_neg]
      push_neg
      exact htr
    constructor
    · intro _
      refine le_trans ?_ (le_evenUp _)
      show minsz.1 ≤ pyInt ((origin.1 : ℚ) * effScale origin m minsz ld)
      rw [he]
      exact htr.1
    · intro _
      refine le_trans ?_ (le_evenUp _)
      show minsz.2 ≤ pyInt ((origin.2 : ℚ) * effScale origin m minsz ld)
      rw [he]
      exact htr.2

/-- C3 counterexample: native size 100×10, mode `divide` with factor 1/2,
limit direction `x`, minimum size (1, 8).  The mode-driven height
`int(10 · 1/2) = 5` falls below the minimum 8, yet the resolver's output
height is 6 < 8: the minimum-size constraint does **not** win on the
height axis when the limit direction is `x`, contradicting the claim
that every axis that fell below the minimum ends up at or above it. -/
theorem set_size_min_ignored_cex :
    pyInt ((10 : ℚ) * modeScale (100, 10) (Mode.divide (1 / 2)) LimitDir.x) < 8 ∧
    (set_size (100, 10) (Mode.divide (1 / 2)) (1, 8) LimitDir.x).2 < 8 := by
  constructor <;>
    norm_num [set_size, setSizeRaw, effScale, modeScale, dimScale, minAdjustedScale,
      evenUp, pyInt, targetOf, max_def] <;> decide

/-- C4: for every probed video and every configuration, the
`change_required` flag computed by `set_parameters` is true exactly when
at least one of the plan's target size, target bitrate, target fps
differs (exact equality test) from the corresponding native value — and
hence false exactly when all three are unchanged. -/
theorem change_required_iff (info : VideoInfo) (cfg : Config) :
    (set_parameters info cfg).change_required = true ↔
      ((set_parameters info cfg).size ≠ info.size ∨
        (set_parameters info cfg).bit_rate ≠ (info.bit_rate : ℚ) ∨
        (set_parameters info cfg).fps ≠ info.avg_frame_rate) := by
  simp only [set_parameters, Bool.or_eq_true, decide_eq_true_eq]
  tauto

/-- C7: `set_bit_rate` returns exactly
`min(native_bitrate, bpp · width · height · fps)` for every native
bitrate, so the bitrate is never raised above the source's; with
bpp = 0.036, target 1920×1080 and fps 30 (exact rational arithmetic,
modelling the Python floats) the ceiling is 2 239 488 bits/sec, a native
bitrate of 5 000 000 is capped to 2 239 488, and a native bitrate of
1 000 000 is left unchanged. -/
theorem set_bit_rate_min_rule :
    (∀ ob bpp : ℚ, ∀ w h : ℕ, ∀ f : ℚ,
      set_bit_rate ob bpp w h f = min ob (bitrateFromBPP bpp w h f)) ∧
    bitrateFromBPP (36 / 1000) 1920 1080 30 = 2239488 ∧
    set_bit_rate 5000000 (36 / 1000) 1920 1080 30 = 2239488 ∧
    set_bit_rate 1000000 (36 / 1000) 1920 1080 30 = 1000000 := by
  refine ⟨fun ob bpp w h f => ?_, by norm_num [bitrateFromBPP],
    by norm_num [set_bit_rate, bitrateFromBPP],
    by norm_num [set_bit_rate, bitrateFromBPP]⟩
  unfold set_bit_rate
  rcases le_or_lt ob (bitrateFromBPP bpp w h f) with h1 | h1
  · rw [if_neg (not_lt.mpr h1), min_eq_left h1]
  · rw [if_pos h1, min_eq_right h1.le]

/-- C10: a video whose native width or height is odd is always marked
for re-encoding: `set_size` forces both output dimensions even, so the
target size necessarily differs from the native size and
`set_parameters` sets `change_required`, whatever the configuration. -/
theorem odd_native_forces_change (info : VideoInfo) (cfg : Config)
    (hw : 0 < info.size.1) (hh : 0 < info.size.2)
    (hodd : Odd info.size.1 ∨ Odd info.size.2) :
    (set_parameters info cfg).change_required = true := by
  have hne : set_size info.size cfg.mode cfg.min_size cfg.limit_direction ≠ info.size := by
    intro heq
    rcases hodd with ho | ho
    · have hev : Even (set_size info.size cfg.mode cfg.min_size cfg.limit_direction).1 :=
        evenUp_even _
      rw [heq] at hev
      exact (Nat.odd_iff_not_even.mp ho) hev
    · have hev : Even (set_size info.size cfg.mode cfg.min_size cfg.limit_direction).2 :=
        evenUp_even _
      rw [heq] at hev
      exact (Nat.odd_iff_not_even.mp ho) hev
  simp only [set_parameters, Bool.or_eq_true, decide_eq_true_eq]
  tauto

/-! ## Executor lemmas -/

theorem look_write (fs : FS) (p q : ℕ) (f : SrcFile) :
    (fs.write q f).look p = if q = p then some f else fs.look p := rfl

theorem processFile_fs_cases (enc : Asset → Option SrcFile) (nc : Bool) (fs : FS)
    (a : Asset) :
    (processFile enc nc fs a).fs = fs ∨
      ∃ f, (processFile enc nc fs a).fs = fs.write a.outPath f := by
  unfold processFile
  rcases fs.look a.outPath with _ | f
  · rcases a.change_required with _ | _ <;> rcases nc with _ | _ <;>
      rcases enc a with _ | out <;> simp <;>
      first
        | exact Or.inl rfl
        | exact Or.inr ⟨a.src, rfl⟩
        | (split
           · exact Or.inr ⟨a.src, rfl⟩
           · exact Or.inr ⟨out, rfl⟩)
  · exact Or.inl rfl

theorem look_isSome_processFile (enc : Asset → Option SrcFile) (nc : Bool) (fs : FS)
    (a : Asset) (p : ℕ) (h : (fs.look p).isSome = true) :
    (((processFile enc nc fs a).fs).look p).isSome = true := by
  rcases processFile_fs_cases enc nc fs a with heq | ⟨f, heq⟩
  · rw [heq]; exact h
  · rw [heq, look_write]
    split
    · rfl
    · exact h

theorem look_isSome_runBatch (enc : Asset → Option SrcFile) (nc : Bool)
    (assets : List Asset) (fs : FS) (p : ℕ) (h : (fs.look p).isSome = true) :
    (((runBatch enc nc fs assets).fs).look p).isSome = true := by
  induction assets generalizing fs with
  | nil => exact h
  | cons a rest ih =>
    exact ih (processFile enc nc fs a).fs (look_isSome_processFile enc nc fs a p h)

theorem look_isSome_after_processFile (enc : Asset → Option SrcFile) (nc : Bool)
    (fs : FS) (a : Asset)
    (hneed : a.change_required = true ∨ nc = true)
    (hsucc : a.change_required = true → (enc a).isSome = true) :
    (((processFile enc nc fs a).fs).look a.outPath).isSome = true := by
  unfold processFile
  rcases hl : fs.look a.outPath with _ | f
  · rcases hch : a.change_required with _ | _
    · have hnc : nc = true := by
        rcases hneed with h | h
        · rw [hch] at h; cases h
        · exact h
      subst hnc
      simp [look_write]
    · have := hsucc hch
      rcases henc : enc a with _ | out
      · rw [henc] at this; cases this
      · simp only [Bool.true_eq_false, if_false, henc]
        split <;> simp [look_write]
  · simp [hl]

theorem runBatch_covers (enc : Asset → Option SrcFile) (nc : Bool)
    (assets : List Asset) (fs : FS)
    (hsucc : ∀ a ∈ assets, a.change_required = true → (enc a).isSome = true) :
    ∀ a ∈ assets, (a.change_required = true ∨ nc = true) →
      (((runBatch enc nc fs assets).fs).look a.outPath).isSome = true := by
  induction assets generalizing fs with
  | nil => intro a ha; cases ha
  | cons b rest ih =>
    intro a ha hneed
    rcases List.mem_cons.mp ha with heq | ha2
    · subst heq
      show (((runBatch enc nc (processFile enc nc fs a).fs rest).fs).look a.outPath).isSome = true
      exact look_isSome_runBatch enc nc rest _ a.outPath
        (look_isSome_after_processFile enc nc fs a hneed
          (hsucc a (List.mem_cons_self a rest)))
    · exact ih (processFile enc nc fs b).fs
        (fun x hx hchx => hsucc x (List.mem_cons_of_mem b hx) hchx) a ha2 hneed

theorem runBatch_noop (enc : Asset → Option SrcFile) (nc : Bool)
    (assets : List Asset) (fs : FS)
    (h : ∀ a ∈ assets, (fs.look a.outPath).isSome = true ∨
      (a.change_required = false ∧ nc = false)) :
    (runBatch enc nc fs assets).fs = fs ∧
    (runBatch enc nc fs assets).encoderRuns = 0 ∧
    ∀ o ∈ (runBatch enc nc fs assets).outcomes,
      o = Outcome.skippedExists ∨ o = Outcome.skippedNoChange := by
  induction assets with
  | nil => exact ⟨rfl, rfl, by intro o ho; cases ho⟩
  | cons a rest ih =>
    have hstep : processFile enc nc fs a = ⟨fs, Outcome.skippedExists, 1, 0⟩ ∨
        processFile enc nc fs a = ⟨fs, Outcome.skippedNoChange, 1, 0⟩ := by
      rcases h a (List.mem_cons_self a rest) with hx | ⟨hch, hnc⟩
      · unfold processFile
        rcases hl : fs.look a.outPath with _ | f
        · rw [hl] at hx; cases hx
        · exact Or.inl rfl
      · unfold processFile
        rcases hl : fs.look a.outPath with _ | f
        · subst hnc
          simp [hch]
        · exact Or.inl rfl
    have hrest := ih (fun x hx => h x (List.mem_cons_of_mem a hx))
    have hrun : runBatch enc nc fs (a :: rest) =
        ⟨(runBatch enc nc (processFile enc nc fs a).fs rest).fs,
          (processFile enc nc fs a).outcome ::
            (runBatch enc nc (processFile enc nc fs a).fs rest).outcomes,
          (processFile enc nc fs a).etaUpdates +
            (runBatch enc nc (processFile enc nc fs a).fs rest).etaUpdates,
          (processFile enc nc fs a).encoderRuns +
            (runBatch enc nc (processFile enc nc fs a).fs rest).encoderRuns⟩ := rfl
    rcases hstep with hs | hs
    · simp only [hrun, hs]
      refine ⟨hrest.1, by rw [hrest.2.1], ?_⟩
      intro o ho
      rcases List.mem_cons.mp ho with rfl | ho2
      · exact Or.inl rfl
      · exact hrest.2.2 o ho2
    · simp only [hrun, hs]
      refine ⟨hrest.1, by rw [hrest.2.1], ?_⟩
      intro o ho
      rcases List.mem_cons.mp ho with rfl | ho2
      · exact Or.inr rfl
      · exact hrest.2.2 o ho2

theorem processFile_eta (enc : Asset → Option SrcFile) (nc : Bool) (fs : FS) (a : Asset) :
    (processFile enc nc fs a).etaUpdates =
      if (processFile enc nc fs a).outcome = Outcome.failed then 0 else 1 := by
  unfold processFile
  rcases fs.look a.outPath with _ | f
  · rcases a.change_required with _ | _ <;> rcases nc with _ | _ <;>
      rcases enc a with _ | out <;> simp <;> split <;> simp
  · simp

/-- C5: whenever the encoder invocation succeeds but the produced output
file is strictly larger than the input file, the `resize` loop replaces
the output with a verbatim copy of the source: the file finally stored at
the output path is the source file itself, never the oversized transcode.
Hence under an encoder whose output is always larger than the input,
every kept conversion result is a verbatim source copy. -/
theorem oversize_output_replaced_by_copy (enc : Asset → Option SrcFile) (nc : Bool)
    (fs : FS) (a : Asset) (out : SrcFile)
    (hnew : fs.look a.outPath = none) (hch : a.change_required = true)
    (henc : enc a = some out) (hbig : a.src.byteSize < out.byteSize) :
    (processFile enc nc fs a).outcome = Outcome.copiedOversize ∧
    ((processFile enc nc fs a).fs).look a.outPath = some a.src := by
  unfold processFile
  rw [hnew, hch, henc]
  simp [if_pos hbig, look_write]

/-- C6: first, whenever the computed output path already exists, the
`resize` loop skips the asset leaving the file system untouched — it
returns the unmodified tree with outcome `skippedExists`; consequently,
when every change-requiring asset's encoder invocation succeeds, running
the whole batch a second time over the file tree produced by the first
run performs zero encoder invocations, leaves the tree unchanged, and
ends every iteration in a skip. -/
theorem rerun_performs_no_conversions (enc : Asset → Option SrcFile) (nc : Bool)
    (assets : List Asset)
    (hsucc : ∀ a ∈ assets, a.change_required = true → (enc a).isSome = true) :
    (∀ fs : FS, ∀ a : Asset, ∀ f : SrcFile, fs.look a.outPath = some f →
      processFile enc nc fs a = ⟨fs, Outcome.skippedExists, 1, 0⟩) ∧
    (runBatch enc nc (runBatch enc nc [] assets).fs assets).encoderRuns = 0 ∧
    (runBatch enc nc (runBatch enc nc [] assets).fs assets).fs =
      (runBatch enc nc [] assets).fs ∧
    ∀ o ∈ (runBatch enc nc (runBatch enc nc [] assets).fs assets).outcomes,
      o = Outcome.skippedExists ∨ o = Outcome.skippedNoChange := by
  have hskip : ∀ fs : FS, ∀ a : Asset, ∀ f : SrcFile, fs.look a.outPath = some f →
      processFile enc nc fs a = ⟨fs, Outcome.skippedExists, 1, 0⟩ := by
    intro fs a f hf
    unfold processFile
    rw [hf]
  have hnoop := runBatch_noop enc nc assets (runBatch enc nc [] assets).fs ?_
  · exact ⟨hskip, hnoop.2.1, hnoop.1, hnoop.2.2⟩
  · intro a ha
    by_cases hneed : a.change_required = true ∨ nc = true
    · exact Or.inl (runBatch_covers enc nc assets [] hsucc a ha hneed)
    · push_neg at hneed
      exact Or.inr ⟨Bool.not_eq_true _ ▸ hneed.1, Bool.not_eq_true _ ▸ hneed.2⟩

/-- C9 (amended): the `resize` loop recomputes the estimated finish time
exactly once per file whose iteration does not end in an encoder failure
(skipped-exists, no-change copy or skip, successful conversion, oversize
copy); an iteration that ends in `failed` performs **zero** ETA
recomputations, because the error path `continue`s before the
recomputation.  Formally: one outcome is recorded per asset, and the
total number of ETA recomputations equals the number of non-`failed`
outcomes. -/
theorem eta_recomputed_once_unless_failed (enc : Asset → Option SrcFile) (nc : Bool)
    (fs : FS) (assets : List Asset) :
    (runBatch enc nc fs assets).outcomes.length = assets.length ∧
    (runBatch enc nc fs assets).etaUpdates =
      ((runBatch enc nc fs assets).outcomes.filter
        (fun o => decide (o ≠ Outcome.failed))).length := by
  induction assets generalizing fs with
  | nil => exact ⟨rfl, rfl⟩
  | cons a rest ih =>
    have hrun : runBatch enc nc fs (a :: rest) =
        ⟨(runBatch enc nc (processFile enc nc fs a).fs rest).fs,
          (processFile enc nc fs a).outcome ::
            (runBatch enc nc (processFile enc nc fs a).fs rest).outcomes,
          (processFile enc nc fs a).etaUpdates +
            (runBatch enc nc (processFile enc nc fs a).fs rest).etaUpdates,
          (processFile enc nc fs a).encoderRuns +
            (runBatch enc nc (processFile enc nc fs a).fs rest).encoderRuns⟩ := rfl
    have hstep := processFile_eta enc nc fs a
    have hrest := ih (processFile enc nc fs a).fs
    rw [hrun]
    by_cases hfail : (processFile enc nc fs a).outcome = Outcome.failed
    · rw [if_pos hfail] at hstep
      constructor
      · simp [hrest.1]
      · simp only [List.filter_cons, hfail, hstep]
        simp [hrest.2]
    · rw [if_neg hfail] at hstep
      constructor
      · simp [hrest.1]
      · simp only [List.filter_cons, hstep]
        rw [if_pos (by simpa using hfail)]
        simp [hrest.2]
        omega

/-- C9 counterexample: a one-file batch whose encoder invocation fails —
the iteration's outcome is `failed` and the number of ETA recomputations
for the whole batch is 0, not the 1 per completed file the claim
demands for every outcome including failures. -/
theorem eta_missing_on_failure_cex :
    (runBatch (fun _ => none) true [] [⟨0, ⟨0, 10⟩, true⟩]).outcomes = [Outcome.failed] ∧
    (runBatch (fun _ => none) true [] [⟨0, ⟨0, 10⟩, true⟩]).etaUpdates = 0 := by
  decide

/-! ## Witnesses -/

/-- Witness for C2: a 4k-native video resized to `fullhd` in `xy`
direction with the default minimum size satisfies the amended bounds. -/
theorem set_size_no_upscale_witness :
    (0 : ℕ) < 3840 ∧ (0 : ℕ) < 2160 ∧ Mode.fullhd.usesTarget = true ∧
    effScale (3840, 2160) Mode.fullhd (1, 1) LimitDir.xy ≤ 1 ∧
    (set_size (3840, 2160) Mode.fullhd (1, 1) LimitDir.xy).1 ≤ 3841 :=
  ⟨by decide, by decide, rfl,
    (set_size_no_upscale (3840, 2160) Mode.fullhd (1, 1) LimitDir.xy (by decide)
      (by decide) rfl (by decide) (by decide)).1,
    (set_size_no_upscale (3840, 2160) Mode.fullhd (1, 1) LimitDir.xy (by decide)
      (by decide) rfl (by decide) (by decide)).2.2.2.1⟩

/-- Witness for C3: with limit direction `xy` the minimum height 8 is
enforced on the 100×10 / `divide` 1/2 example. -/
theorem set_size_min_on_limited_axis_witness :
    (0 : ℕ) < 100 ∧ (0 : ℕ) < 10 ∧
    8 ≤ (set_size (100, 10) (Mode.divide (1 / 2)) (1, 8) LimitDir.xy).2 :=
  ⟨by decide, by decide,
    (set_size_min_on_limited_axis (100, 10) (Mode.divide (1 / 2)) (1, 8) LimitDir.xy
      (by decide) (by decide)).2 (Or.inr rfl)⟩

/-- Witness for C5: an encoder producing a 99-byte output from a 10-byte
source — the kept output file is the verbatim source. -/
theorem oversize_output_replaced_by_copy_witness :
    FS.look [] 0 = none ∧ (10 : ℕ) < 99 ∧
    (processFile (fun _ => some ⟨2, 99⟩) true [] ⟨0, ⟨1, 10⟩, true⟩).outcome =
      Outcome.copiedOversize ∧
    ((processFile (fun _ => some ⟨2, 99⟩) true [] ⟨0, ⟨1, 10⟩, true⟩).fs).look 0 =
      some ⟨1, 10⟩ :=
  ⟨rfl, by decide,
    (oversize_output_replaced_by_copy (fun _ => some ⟨2, 99⟩) true []
      ⟨0, ⟨1, 10⟩, true⟩ ⟨2, 99⟩ rfl rfl rfl (by decide)).1,
    (oversize_output_replaced_by_copy (fun _ => some ⟨2, 99⟩) true []
      ⟨0, ⟨1, 10⟩, true⟩ ⟨2, 99⟩ rfl rfl rfl (by decide)).2⟩

/-- Witness for C6: a two-asset batch (one conversion, one no-change
copy) rerun over its own output tree performs zero encoder runs. -/
theorem rerun_performs_no_conversions_witness :
    (∀ a ∈ ([⟨0, ⟨5, 10⟩, true⟩, ⟨1, ⟨6, 10⟩, false⟩] : List Asset),
      a.change_required = true →
        ((fun x => some ⟨x.src.content + 100, 4⟩ : Asset → Option SrcFile) a).isSome = true) ∧
    (runBatch (fun x => some ⟨x.src.content + 100, 4⟩) true
      (runBatch (fun x => some ⟨x.src.content + 100, 4⟩) true []
        [⟨0, ⟨5, 10⟩, true⟩, ⟨1, ⟨6, 10⟩, false⟩]).fs
      [⟨0, ⟨5, 10⟩, true⟩, ⟨1, ⟨6, 10⟩, false⟩]).encoderRuns = 0 :=
  ⟨by decide,
    (rerun_performs_no_conversions (fun x => some ⟨x.src.content + 100, 4⟩) true
      [⟨0, ⟨5, 10⟩, true⟩, ⟨1, ⟨6, 10⟩, false⟩] (by decide)).2.1⟩

/-- Witness for C8: the 1919×1079 native size yields even output
dimensions. -/
theorem set_size_even_dimensions_witness :
    (0 : ℕ) < 1919 ∧ (0 : ℕ) < 1079 ∧
    Even (set_size (1919, 1079) Mode.fullhd (1, 1) LimitDir.xy).1 ∧
    Even (set_size (1919, 1079) Mode.fullhd (1, 1) LimitDir.xy).2 :=
  ⟨by decide, by decide,
    (set_size_even_dimensions (1919, 1079) Mode.fullhd (1, 1) LimitDir.xy (by decide)
      (by decide)).1,
    (set_size_even_dimensions (1919, 1079) Mode.fullhd (1, 1) LimitDir.xy (by decide)
      (by decide)).2.1⟩

/-- Witness for C10: a 1919×1080 video is marked `change_required` under
the default configuration. -/
theorem odd_native_forces_change_witness :
    (0 : ℕ) < 1919 ∧ Odd (1919 : ℕ) ∧
    (set_parameters ⟨(1919, 1080), 4000000, 30, 60⟩
      ⟨Mode.fullhd, (1, 1), LimitDir.xy, 60, 36 / 1000, true⟩).change_required = true :=
  ⟨by decide, by decide,
    odd_native_forces_change ⟨(1919, 1080), 4000000, 30, 60⟩
      ⟨Mode.fullhd, (1, 1), LimitDir.xy, 60, 36 / 1000, true⟩ (by decide) (by decide)
      (Or.inl (by decide))⟩

end VideoResizeModel
